import Mathlib

/-!
# Verification of the taxonomic abundance aggregation and comparison engine

Shallow embedding, in Lean 4, of the core of the shotgun-metagenomics
reporter: the level-table builder of `parse_taxa.py`, the RPM normalizers of
`extract_taxa.py` and `extract_taxa_simple.py`, and the group assigner,
abundance ratio engine, TSV generator and Shannon diversity calculator of
`ai_realtime_analyzer.py`.

Modelling conventions:
* Python strings are modelled as `List Char`; `str.split('|')`,
  `str.startswith`, `in` (substring) and `str.lower()` are re-implemented
  below exactly as the ASCII-level operations the scripts rely on.
* Python/NumPy floats are idealized as exact rationals `ℚ`, except where
  IEEE special values are semantically essential: pandas division (which
  yields `NaN`/`±inf` instead of raising) is given the explicit value type
  `PFloat`, and a Python `float` division by zero (which raises
  `ZeroDivisionError`) is modelled with `Except`.
* `variance ** 0.5` (a float square root) is abstracted as an explicit
  function parameter `sqrtFn : ℚ → ℚ`; no theorem below depends on its
  values because every statement either avoids the `> 1`-sample branch or
  quantifies over `sqrtFn`.
-/

namespace Shotgun

/-- Python string, modelled as its list of characters. -/
abbrev Str := List Char

/-- Characters of a Lean string literal (used to write `Str` constants). -/
def strL (s : String) : Str := s.data

/-- `needle.leadsWith hay`-style prefix test: models Python
`s.startswith(p)` as `leadsWith p s`. -/
def leadsWith : Str → Str → Bool
  | [], _ => true
  | _ :: _, [] => false
  | a :: as, b :: bs => a == b && leadsWith as bs

/-- Models Python `needle in hay` (contiguous substring containment). -/
def hasSeg : Str → Str → Bool
  | hay, needle =>
    leadsWith needle hay ||
      match hay with
      | [] => false
      | _ :: t => hasSeg t needle

/-- Models Python `s.lower()` for the ASCII metadata labels used here. -/
def lowerL (s : Str) : Str := s.map Char.toLower

/-- Models Python `s.replace('_', ' ')`. -/
def usToSpaces (s : Str) : Str := s.map (fun c => if c = '_' then ' ' else c)

/-- Models Python `s.split('|')` (`"".split('|') == ['']`). -/
def splitPipe : Str → List Str
  | [] => [[]]
  | c :: rest =>
    match splitPipe rest with
    | [] => [[c]]
    | h :: t => if c = '|' then [] :: h :: t else (c :: h) :: t

/-- Models Python `'|'.join(parts)`. -/
def joinPipe : List Str → Str
  | [] => []
  | [p] => p
  | p :: ps => p ++ '|' :: joinPipe ps

theorem splitPipe_ne_nil (s : Str) : splitPipe s ≠ [] := by
  cases s with
  | nil => simp [splitPipe]
  | cons c rest =>
    simp only [splitPipe]
    cases splitPipe rest with
    | nil => simp
    | cons h t => by_cases hc : c = '|' <;> simp [hc]

theorem mem_splitPipe_no_pipe (s : Str) : ∀ p ∈ splitPipe s, '|' ∉ p := by
  induction s with
  | nil => simp [splitPipe]
  | cons c rest ih =>
    simp only [splitPipe]
    cases hrest : splitPipe rest with
    | nil => exact absurd hrest (splitPipe_ne_nil rest)
    | cons h t =>
      by_cases hc : c = '|' <;> simp only [hc, if_true, if_false, reduceIte]
      · intro p hp
        rcases List.mem_cons.1 hp with h1 | h1
        · simp [h1]
        · exact ih p (hrest ▸ h1)
      · intro p hp
        rcases List.mem_cons.1 hp with h1 | h1
        · subst h1
          intro hmem
          rcases List.mem_cons.1 hmem with h2 | h2
          · exact hc h2.symm
          · exact ih h (hrest ▸ List.mem_cons_self h t) h2
        · exact ih p (hrest ▸ List.mem_cons_of_mem h h1)

theorem splitPipe_joinPipe (ps : List Str) (hne : ps ≠ [])
    (hnp : ∀ p ∈ ps, '|' ∉ p) : splitPipe (joinPipe ps) = ps := by
  induction ps with
  | nil => exact absurd rfl hne
  | cons p ps ih =>
    cases ps with
    | nil =>
      simp only [joinPipe]
      have hp : '|' ∉ p := hnp p (List.mem_cons_self p [])
      clear hne hnp ih
      induction p with
      | nil => simp [splitPipe]
      | cons c cs ihp =>
        have hc : c ≠ '|' := fun h => hp (h ▸ List.mem_cons_self c cs)
        have hcs : '|' ∉ cs := fun h => hp (List.mem_cons_of_mem c h)
        have := ihp hcs
        simp only [splitPipe, this, hc, if_false, reduceIte]
    | cons q qs =>
      have hps : (q :: qs : List Str) ≠ [] := by simp
      have hnp' : ∀ r ∈ q :: qs, '|' ∉ r :=
        fun r hr => hnp r (List.mem_cons_of_mem p hr)
      have hjoin := ih hps hnp'
      have hp : '|' ∉ p := hnp p (List.mem_cons_self p _)
      simp only [joinPipe]
      clear hne hnp ih hps hnp'
      induction p with
      | nil => simp [splitPipe, hjoin]
      | cons c cs ihp =>
        have hc : c ≠ '|' := fun h => hp (h ▸ List.mem_cons_self c cs)
        have hcs : '|' ∉ cs := fun h => hp (List.mem_cons_of_mem c h)
        have hrec := ihp hcs
        simp only [List.cons_append, splitPipe, List.append_eq]
        rw [hrec]
        simp [hc]

/-! ## Level Table Builder (`parse_taxa.py`, `save_subtables`) -/

/-- One row of an abundance table: the taxon path and its per-sample values. -/
abbrev Row := Str × List ℚ

/-- `'|'.join(taxa[:depth + 1]) if len(taxa) > depth else ''`
(`parse_taxa.py` line 14; `depth` is 0-based, file `level_{depth+1}`). -/
def truncKey (depth : ℕ) (taxon : Str) : Str :=
  let parts := splitPipe taxon
  if parts.length > depth then joinPipe (parts.take (depth + 1)) else []

/-- pandas `~index.duplicated(keep='first')`: keep, in order, each row whose
key has not been seen before. -/
def dedupFirstAux (seen : List Str) : List Row → List Row
  | [] => []
  | (k, v) :: rest =>
    if k ∈ seen then dedupFirstAux seen rest
    else (k, v) :: dedupFirstAux (k :: seen) rest

def dedupFirst (rows : List Row) : List Row := dedupFirstAux [] rows

/-- The depth-`depth` subtable of `save_subtables`: re-key every row by its
truncated path, drop later duplicate keys, then drop rows with empty key
(`sub_df = sub_df[sub_df['Taxa'] != '']`). -/
def levelTable (depth : ℕ) (rows : List Row) : List Row :=
  (dedupFirst (rows.map (fun r => (truncKey depth r.1, r.2)))).filter
    (fun r => r.1 ≠ [])

theorem mem_dedupFirstAux (rows : List Row) (seen : List Str) (k : Str)
    (v : List ℚ) :
    ((k, v) ∈ dedupFirstAux seen rows ↔
      k ∉ seen ∧ rows.find? (fun r => r.1 == k) = some (k, v)) := by
  induction rows generalizing seen with
  | nil => simp [dedupFirstAux]
  | cons r rest ih =>
    obtain ⟨k', v'⟩ := r
    have hfind : List.find? (fun r => r.1 == k) ((k', v') :: rest) =
        if k' = k then some (k', v')
        else List.find? (fun r => r.1 == k) rest := by
      by_cases he : k' = k <;> simp [List.find?_cons, he]
    by_cases hk : k' ∈ seen
    · rw [dedupFirstAux, if_pos hk, hfind]
      by_cases he : k' = k
      · subst he
        rw [if_pos rfl]
        constructor
        · intro hmem
          exact absurd hk ((ih seen).1 hmem).1
        · rintro ⟨h1, -⟩
          exact absurd hk h1
      · rw [if_neg he]
        exact ih seen
    · rw [dedupFirstAux, if_neg hk, hfind]
      by_cases he : k' = k
      · subst he
        rw [if_pos rfl]
        constructor
        · intro hmem
          rcases List.mem_cons.1 hmem with h1 | h1
          · have hv : v = v' := (Prod.ext_iff.1 h1).2
            exact ⟨hk, by rw [hv]⟩
          · exact (((ih (k' :: seen)).1 h1).1 (List.mem_cons_self k' seen)).elim
        · rintro ⟨h1, h2⟩
          have hv : v' = v := by
            injection h2 with h3
            exact (Prod.ext_iff.1 h3).2
          exact List.mem_cons.2 (Or.inl (by rw [hv]))
      · rw [if_neg he]
        constructor
        · intro hmem
          rcases List.mem_cons.1 hmem with h1 | h1
          · exact absurd (Prod.ext_iff.1 h1).1.symm he
          · obtain ⟨h2, h3⟩ := (ih (k' :: seen)).1 h1
            exact ⟨fun hs => h2 (List.mem_cons_of_mem k' hs), h3⟩
        · rintro ⟨h1, h2⟩
          refine List.mem_cons.2 (Or.inr ((ih (k' :: seen)).2 ⟨?_, h2⟩))
          intro hm
          rcases List.mem_cons.1 hm with h3 | h3
          · exact he h3.symm
          · exact h1 h3

theorem dedupFirstAux_keys_nodup (rows : List Row) (seen : List Str) :
    ((dedupFirstAux seen rows).map Prod.fst).Nodup ∧
      ∀ k ∈ (dedupFirstAux seen rows).map Prod.fst, k ∉ seen := by
  induction rows generalizing seen with
  | nil => simp [dedupFirstAux]
  | cons r rest ih =>
    obtain ⟨k', v'⟩ := r
    by_cases hk : k' ∈ seen
    · simpa [dedupFirstAux, hk] using ih seen
    · obtain ⟨ihn, ihs⟩ := ih (k' :: seen)
      refine ⟨?_, ?_⟩
      · simp only [dedupFirstAux, if_neg hk, List.map_cons, List.nodup_cons]
        exact ⟨fun hmem => (ihs k' hmem) (List.mem_cons_self k' seen), ihn⟩
      · intro k hkm
        simp only [dedupFirstAux, if_neg hk, List.map_cons,
          List.mem_cons] at hkm
        rcases hkm with h1 | h1
        · exact h1 ▸ hk
        · exact fun hs => (ihs k h1) (List.mem_cons_of_mem k' hs)

theorem splitPipe_truncKey (depth : ℕ) (t : Str)
    (h : truncKey depth t ≠ []) :
    (splitPipe t).length > depth ∧
      splitPipe (truncKey depth t) = (splitPipe t).take (depth + 1) := by
  unfold truncKey at h ⊢
  by_cases hlen : (splitPipe t).length > depth
  · refine ⟨hlen, ?_⟩
    rw [if_pos hlen] at h ⊢
    apply splitPipe_joinPipe
    · intro habs
      have : ((splitPipe t).take (depth + 1)).length = depth + 1 := by
        rw [List.length_take]
        omega
      rw [habs] at this
      simp at this
    · intro p hp
      exact mem_splitPipe_no_pipe t p (List.take_subset (depth + 1) _ hp)
  · rw [if_neg hlen] at h
    exact absurd rfl h

theorem mem_levelTable (depth : ℕ) (rows : List Row) (k : Str)
    (v : List ℚ) :
    ((k, v) ∈ levelTable depth rows ↔
      k ≠ [] ∧ (rows.map (fun r => (truncKey depth r.1, r.2))).find?
        (fun r => r.1 == k) = some (k, v)) := by
  unfold levelTable dedupFirst
  rw [List.mem_filter, mem_dedupFirstAux]
  constructor
  · rintro ⟨⟨-, h2⟩, h3⟩
    exact ⟨by simpa using h3, h2⟩
  · rintro ⟨h1, h2⟩
    exact ⟨⟨by simp, h2⟩, by simpa using h1⟩

/-- **C5.** For every abundance matrix and depth, each row key of the
depth-`depth` subtable (file `level_{depth+1}`) splits into exactly
`depth + 1` pipe-separated parts; keys are pairwise distinct; and a row
`(k, v)` is in the subtable exactly when `k` is nonempty and the row is the
first one (in original order) whose truncated key is `k` — later duplicates
are discarded, never merged. -/
theorem levelTable_invariants (depth : ℕ) (rows : List Row) :
    (∀ p ∈ levelTable depth rows, (splitPipe p.1).length = depth + 1) ∧
    ((levelTable depth rows).map Prod.fst).Nodup ∧
    (∀ k v, ((k, v) ∈ levelTable depth rows ↔
      k ≠ [] ∧ (rows.map (fun r => (truncKey depth r.1, r.2))).find?
        (fun r => r.1 == k) = some (k, v))) := by
  refine ⟨?_, ?_, fun k v => mem_levelTable depth rows k v⟩
  · rintro ⟨k, v⟩ hp
    obtain ⟨hk, hfind⟩ := (mem_levelTable depth rows k v).1 hp
    have hmem := List.mem_of_find?_eq_some hfind
    obtain ⟨r, -, hr⟩ := List.mem_map.1 hmem
    have hkey : truncKey depth r.1 = k := (Prod.ext_iff.1 hr).1
    obtain ⟨hlen, hsplit⟩ := splitPipe_truncKey depth r.1 (hkey ▸ hk)
    rw [← hkey, hsplit, List.length_take]
    omega
  · have hded := (dedupFirstAux_keys_nodup
      (rows.map (fun r => (truncKey depth r.1, r.2))) []).1
    exact List.Nodup.sublist
      (List.Sublist.map Prod.fst (List.filter_sublist _)) hded

/-! ## Taxonomy Path Parser (rank markers and component lookup) -/

/-- Two-character rank markers, depth 1-7
(`k__`,`p__`,`c__`,`o__`,`f__`,`g__`,`s__`; cf. the `level_prefix` /
`file_prefix_mapping` dictionaries of `ai_realtime_analyzer.py`). -/
def rankPfx : ℕ → Str
  | 1 => strL "k__"
  | 2 => strL "p__"
  | 3 => strL "c__"
  | 4 => strL "o__"
  | 5 => strL "f__"
  | 6 => strL "g__"
  | 7 => strL "s__"
  | _ => []

/-- The rank-component loop of `calculate_taxa_control_uc_ratios`
(lines 237-242): first `|`-separated part starting with the rank marker. -/
def rankComponent (path pfx : Str) : Option Str :=
  (splitPipe path).find? (fun part => leadsWith pfx part)

/-- Data-model invariant of a full Taxon Path: the `i`-th component carries
the depth-`(i+1)` rank marker. -/
def wfPath (taxon : Str) : Prop :=
  ∀ i (h : i < (splitPipe taxon).length),
    leadsWith (rankPfx (i + 1)) ((splitPipe taxon).get ⟨i, h⟩) = true

/-- **C7.** Building a level subtable and re-parsing each of its row keys
with the Taxonomy Path Parser for that depth's rank marker succeeds and
recovers the marker, provided the input rows are well-formed taxon paths. -/
theorem levelTable_rank_roundtrip (depth : ℕ) (rows : List Row)
    (hd : depth + 1 ≤ 7) (hwf : ∀ r ∈ rows, wfPath r.1) :
    ∀ p ∈ levelTable depth rows,
      ∃ comp, rankComponent p.1 (rankPfx (depth + 1)) = some comp ∧
        leadsWith (rankPfx (depth + 1)) comp = true := by
  rintro ⟨k, v⟩ hp
  obtain ⟨hk, hfind⟩ := (mem_levelTable depth rows k v).1 hp
  have hmem := List.mem_of_find?_eq_some hfind
  obtain ⟨r, hrmem, hr⟩ := List.mem_map.1 hmem
  have hkey : truncKey depth r.1 = k := (Prod.ext_iff.1 hr).1
  obtain ⟨hlen, hsplit⟩ := splitPipe_truncKey depth r.1 (hkey ▸ hk)
  have helem := hwf r hrmem depth hlen
  have hmem2 : (splitPipe r.1).get ⟨depth, hlen⟩ ∈ splitPipe k := by
    rw [← hkey, hsplit]
    have h1 : depth < ((splitPipe r.1).take (depth + 1)).length := by
      rw [List.length_take]
      omega
    have h2 : ((splitPipe r.1).take (depth + 1)).get ⟨depth, h1⟩ =
        (splitPipe r.1).get ⟨depth, hlen⟩ := by
      simp [List.get_take]
    exact h2 ▸ List.get_mem _ _ _
  have hsome : ((splitPipe k).find?
      (fun part => leadsWith (rankPfx (depth + 1)) part)).isSome := by
    rw [List.find?_isSome]
    exact ⟨(splitPipe r.1).get ⟨depth, hlen⟩, hmem2, helem⟩
  obtain ⟨comp, hcomp⟩ := Option.isSome_iff_exists.1 hsome
  exact ⟨comp, hcomp, List.find?_some hcomp⟩

/-! ## Group Assigner (`ai_realtime_analyzer.py`, lines 140-161, 209-216) -/

/-- `'control' in condition.lower()` (line 213). -/
def isControlLabel (condition : Str) : Bool :=
  hasSeg (lowerL condition) (strL "control")

/-- The sample-metadata dictionary built by `get_sample_metadata`. -/
abbrev Metadata := Str → Option Str

/-- `get_sample_metadata` (lines 148-155): keep only rows with nonempty
`sample` and `group`; later rows overwrite earlier ones as in a Python
dict. -/
def buildMetadata (rows : List (Str × Str)) : Metadata :=
  rows.foldl
    (fun d r =>
      if r.1 ≠ [] ∧ r.2 ≠ [] then
        fun x => if x = r.1 then some r.2 else d x
      else d)
    (fun _ => none)

/-- `condition = metadata.get(sample, 'Unknown')` (line 212). -/
def condOf (md : Metadata) (sample : Str) : Str :=
  (md sample).getD (strL "Unknown")

inductive Group where
  | control
  | uc
deriving DecidableEq

/-- Lines 211-216: `control` iff the label contains the case-insensitive
substring `control`; everything else goes to the UC list. -/
def assignGroup (md : Metadata) (sample : Str) : Group :=
  if isControlLabel (condOf md sample) then .control else .uc

/-- **C6.** A sample is classified `control` exactly when the metadata maps
it to a group string containing the case-insensitive substring `control`;
a sample labelled `Unknown`, and a sample absent from the metadata, are
classified `uc`. -/
theorem assignGroup_spec (md : Metadata) (sample : Str) :
    ((assignGroup md sample = .control ↔
      ∃ g, md sample = some g ∧ isControlLabel g = true) ∧
     (md sample = some (strL "Unknown") → assignGroup md sample = .uc) ∧
     (md sample = none → assignGroup md sample = .uc)) := by
  refine ⟨?_, ?_, ?_⟩
  · unfold assignGroup condOf
    cases hmd : md sample with
    | none =>
      simp only [Option.getD_none]
      have : isControlLabel (strL "Unknown") = false := by decide
      simp [this]
    | some g =>
      simp only [Option.getD_some]
      by_cases hc : isControlLabel g = true
      · simp [hc]
      · simp only [Bool.not_eq_true] at hc
        simp [hc]
  · intro hmd
    unfold assignGroup condOf
    rw [hmd]
    have : isControlLabel (strL "Unknown") = false := by decide
    simp [this]
  · intro hmd
    unfold assignGroup condOf
    rw [hmd]
    have : isControlLabel (strL "Unknown") = false := by decide
    simp [this]

/-- Closed witness for C6: a label `Healthy Control` maps to `control`, a
label `Unknown` and an absent sample map to `uc`. -/
theorem assignGroup_spec_witness :
    (assignGroup (buildMetadata [(strL "s1", strL "Healthy Control"),
        (strL "s2", strL "Unknown")]) (strL "s1") = .control) ∧
    (assignGroup (buildMetadata [(strL "s1", strL "Healthy Control"),
        (strL "s2", strL "Unknown")]) (strL "s2") = .uc) ∧
    (assignGroup (buildMetadata [(strL "s1", strL "Healthy Control"),
        (strL "s2", strL "Unknown")]) (strL "s3") = .uc) := by
  refine ⟨?_, ?_, ?_⟩
  · exact (assignGroup_spec _ (strL "s1")).1.2
      ⟨strL "Healthy Control", by decide, by decide⟩
  · exact (assignGroup_spec _ (strL "s2")).2.1 (by decide)
  · exact (assignGroup_spec _ (strL "s3")).2.2 (by decide)

/-! ## Abundance Ratio Engine (`calculate_taxa_control_uc_ratios`) -/

/-- A Python float ratio: finite or `float('inf')` (line 273). -/
inductive Ratio where
  | inf
  | fin (q : ℚ)
deriving DecidableEq

/-- One element of the `taxa_ratios` list (lines 276-284). -/
structure TaxonStat where
  taxon : Str
  control_avg : ℚ
  uc_avg : ℚ
  uc_std : ℚ
  control_uc_ratio : Ratio
  control_samples_count : ℕ
  uc_samples_count : ℕ
deriving DecidableEq

/-- Strict `>` on Python floats with `inf` (used by `sort(reverse=True)`). -/
def ratioGt : Ratio → Ratio → Bool
  | .inf, .inf => false
  | .inf, .fin _ => true
  | .fin _, .inf => false
  | .fin a, .fin b => b < a

/-- `≥` on Python floats with `inf`. -/
def ratioGe : Ratio → Ratio → Bool
  | .inf, _ => true
  | .fin _, .inf => false
  | .fin a, .fin b => b ≤ a

/-- `taxa_ratios.sort(key=lambda x: x['control_uc_ratio'], reverse=True)`
(line 287): stable descending insertion sort. -/
def insertDesc (r : TaxonStat) : List TaxonStat → List TaxonStat
  | [] => [r]
  | h :: t =>
    if ratioGt h.control_uc_ratio r.control_uc_ratio then h :: insertDesc r t
    else r :: h :: t

def sortDesc (l : List TaxonStat) : List TaxonStat := l.foldr insertDesc []

/-- `level_prefix` / `file_prefix_mapping` (lines 191-200, 228-235); the
level itself comes from `level_mapping.get(.., 2)`, so anything outside
3-7 behaves as the phylum level 2. -/
def levelPrefix : ℕ → Str
  | 3 => strL "c__"
  | 4 => strL "o__"
  | 5 => strL "f__"
  | 6 => strL "g__"
  | 7 => strL "s__"
  | _ => strL "p__"

/-- `sum(l) / len(l) if l else 0` (lines 259-260). -/
def avg (l : List ℚ) : ℚ :=
  if l ≠ [] then l.sum / l.length else 0

/-- Lines 263-267: sample standard deviation of the UC values (denominator
`n - 1`), `0` when fewer than two values; `variance ** 0.5` is the supplied
`sqrtFn`. -/
def ucStd (sqrtFn : ℚ → ℚ) (l : List ℚ) : ℚ :=
  if l.length > 1 then
    sqrtFn ((l.map (fun x => (x - avg l) ^ 2)).sum / ((l.length : ℚ) - 1))
  else 0

/-- Lines 270-273: the Control/UC ratio with its zero guards. -/
def ratioOf (cavg uavg : ℚ) : Ratio :=
  if 0 < uavg then .fin (cavg / uavg)
  else if 0 < cavg then .inf else .fin 0

/-- `[df.loc[taxon, sample] for sample in control_samples if sample in
df.columns]` (line 255): the control-sample cells of a row, realized
positionally (`df.loc` looks a cell up by its unique column name, and
`control_samples` is drawn from `df.columns`, so the guard always holds). -/
def controlValues (md : Metadata) (columns : List Str)
    (values : List ℚ) : List ℚ :=
  ((columns.zip values).filter
    (fun p => assignGroup md p.1 == Group.control)).map Prod.snd

/-- Line 256: the UC-sample cells of a row. -/
def ucValues (md : Metadata) (columns : List Str)
    (values : List ℚ) : List ℚ :=
  ((columns.zip values).filter
    (fun p => assignGroup md p.1 == Group.uc)).map Prod.snd

/-- The loop body of lines 222-284 for one row: resolve the rank component
(`continue` when absent — policy A), clean the name (strip the marker,
underscores to spaces, re-attach the marker, line 277), and compute the
statistics. -/
def rowStat (sqrtFn : ℚ → ℚ) (md : Metadata) (columns : List Str)
    (lvl : ℕ) (row : Row) : Option TaxonStat :=
  match rankComponent row.1 (levelPrefix lvl) with
  | none => none
  | some comp =>
    let pfx := levelPrefix lvl
    let cvals := controlValues md columns row.2
    let uvals := ucValues md columns row.2
    some
      { taxon := pfx ++ usToSpaces (comp.drop pfx.length)
        control_avg := avg cvals
        uc_avg := avg uvals
        uc_std := ucStd sqrtFn uvals
        control_uc_ratio := ratioOf (avg cvals) (avg uvals)
        control_samples_count := cvals.length
        uc_samples_count := uvals.length }

/-- `calculate_taxa_control_uc_ratios` (lines 163-289), given the level
file's sample columns and data rows. -/
def calculate_taxa_control_uc_ratios (sqrtFn : ℚ → ℚ) (md : Metadata)
    (columns : List Str) (lvl : ℕ) (rows : List Row) : List TaxonStat :=
  sortDesc (rows.filterMap (rowStat sqrtFn md columns lvl))

theorem ratioGt_false_ge (a b : Ratio) (h : ratioGt a b = false) :
    ratioGe b a = true := by
  cases a <;> cases b <;> simp_all [ratioGt, ratioGe] <;> linarith

theorem ratioGt_true_ge (a b : Ratio) (h : ratioGt a b = true) :
    ratioGe a b = true := by
  cases a <;> cases b <;> simp_all [ratioGt, ratioGe] <;> linarith

theorem ratioGe_trans (a b c : Ratio) (h1 : ratioGe a b = true)
    (h2 : ratioGe b c = true) : ratioGe a c = true := by
  cases a <;> cases b <;> cases c <;> simp_all [ratioGe] <;> linarith

theorem mem_insertDesc (r x : TaxonStat) (l : List TaxonStat) :
    (x ∈ insertDesc r l ↔ x = r ∨ x ∈ l) := by
  induction l with
  | nil => simp [insertDesc]
  | cons h t ih =>
    by_cases hgt : ratioGt h.control_uc_ratio r.control_uc_ratio = true
    · simp only [insertDesc, if_pos hgt, List.mem_cons, ih]
      tauto
    · simp [insertDesc, if_neg hgt, List.mem_cons]

theorem mem_sortDesc (x : TaxonStat) (l : List TaxonStat) :
    (x ∈ sortDesc l ↔ x ∈ l) := by
  induction l with
  | nil => simp [sortDesc]
  | cons h t ih =>
    simp only [sortDesc, List.foldr_cons, List.mem_cons]
    rw [show List.foldr insertDesc [] t = sortDesc t from rfl] at *
    rw [mem_insertDesc]
    tauto

theorem pairwise_insertDesc (r : TaxonStat) (l : List TaxonStat)
    (h : l.Pairwise
      (fun a b => ratioGe a.control_uc_ratio b.control_uc_ratio = true)) :
    (insertDesc r l).Pairwise
      (fun a b => ratioGe a.control_uc_ratio b.control_uc_ratio = true) := by
  induction l with
  | nil => simp [insertDesc]
  | cons hd t ih =>
    rcases List.pairwise_cons.1 h with ⟨hhd, ht⟩
    by_cases hgt : ratioGt hd.control_uc_ratio r.control_uc_ratio = true
    · rw [insertDesc, if_pos hgt]
      refine List.pairwise_cons.2 ⟨?_, ih ht⟩
      intro x hx
      rcases (mem_insertDesc r x t).1 hx with h1 | h1
      · exact h1 ▸ ratioGt_true_ge _ _ hgt
      · exact hhd x h1
    · rw [insertDesc, if_neg hgt]
      refine List.pairwise_cons.2 ⟨?_, h⟩
      intro x hx
      have hge : ratioGe r.control_uc_ratio hd.control_uc_ratio = true :=
        ratioGt_false_ge _ _ (Bool.not_eq_true _ ▸ hgt)
      rcases List.mem_cons.1 hx with h1 | h1
      · exact h1 ▸ hge
      · exact ratioGe_trans _ _ _ hge (hhd x h1)

theorem pairwise_sortDesc (l : List TaxonStat) :
    (sortDesc l).Pairwise
      (fun a b => ratioGe a.control_uc_ratio b.control_uc_ratio = true) := by
  induction l with
  | nil => simp [sortDesc]
  | cons h t ih => exact pairwise_insertDesc h _ ih

theorem mem_calcRatios (sqrtFn : ℚ → ℚ) (md : Metadata)
    (columns : List Str) (lvl : ℕ) (rows : List Row) (r : TaxonStat) :
    (r ∈ calculate_taxa_control_uc_ratios sqrtFn md columns lvl rows ↔
      ∃ row ∈ rows, rowStat sqrtFn md columns lvl row = some r) := by
  unfold calculate_taxa_control_uc_ratios
  rw [mem_sortDesc, List.mem_filterMap]

theorem rowStat_fields (sqrtFn : ℚ → ℚ) (md : Metadata)
    (columns : List Str) (lvl : ℕ) (row : Row) (r : TaxonStat)
    (h : rowStat sqrtFn md columns lvl row = some r) :
    ∃ comp, rankComponent row.1 (levelPrefix lvl) = some comp ∧
      r.taxon =
        levelPrefix lvl ++ usToSpaces (comp.drop (levelPrefix lvl).length) ∧
      r.control_avg = avg (controlValues md columns row.2) ∧
      r.uc_avg = avg (ucValues md columns row.2) ∧
      r.uc_std = ucStd sqrtFn (ucValues md columns row.2) ∧
      r.control_uc_ratio = ratioOf r.control_avg r.uc_avg ∧
      r.control_samples_count = (controlValues md columns row.2).length ∧
      r.uc_samples_count = (ucValues md columns row.2).length := by
  unfold rowStat at h
  cases hrc : rankComponent row.1 (levelPrefix lvl) with
  | none => rw [hrc] at h; exact absurd h (by simp)
  | some comp =>
    rw [hrc] at h
    simp only [Option.some.injEq] at h
    subst h
    exact ⟨comp, rfl, rfl, rfl, rfl, rfl, rfl, rfl, rfl⟩

/-- **C1.** For every record produced by the ratio engine,
`control_uc_ratio` is `control_avg / uc_avg` when `uc_avg > 0`, `+inf`
when `uc_avg = 0 < control_avg`, and `0` when both averages are `0`;
and the returned list is sorted descending by `control_uc_ratio`, every
`+inf` record standing before every finite-ratio record. -/
theorem calcRatios_ratio_cases_sorted (sqrtFn : ℚ → ℚ) (md : Metadata)
    (columns : List Str) (lvl : ℕ) (rows : List Row) :
    (∀ r ∈ calculate_taxa_control_uc_ratios sqrtFn md columns lvl rows,
      (0 < r.uc_avg →
        r.control_uc_ratio = .fin (r.control_avg / r.uc_avg)) ∧
      (r.uc_avg = 0 → 0 < r.control_avg → r.control_uc_ratio = .inf) ∧
      (r.uc_avg = 0 → r.control_avg = 0 → r.control_uc_ratio = .fin 0)) ∧
    (calculate_taxa_control_uc_ratios sqrtFn md columns lvl rows).Pairwise
      (fun a b => ratioGe a.control_uc_ratio b.control_uc_ratio = true) ∧
    (calculate_taxa_control_uc_ratios sqrtFn md columns lvl rows).Pairwise
      (fun a b => b.control_uc_ratio = .inf → a.control_uc_ratio = .inf) := by
  refine ⟨?_, pairwise_sortDesc _, ?_⟩
  · intro r hr
    obtain ⟨row, -, hrow⟩ := (mem_calcRatios _ _ _ _ _ r).1 hr
    obtain ⟨comp, -, -, -, -, -, hratio, -, -⟩ :=
      rowStat_fields _ _ _ _ _ _ hrow
    rw [hratio]
    unfold ratioOf
    refine ⟨fun hu => ?_, fun hu hc => ?_, fun hu hc => ?_⟩
    · rw [if_pos hu]
    · rw [hu, if_neg (lt_irrefl 0), if_pos hc]
    · rw [hu, hc, if_neg (lt_irrefl 0), if_neg (lt_irrefl 0)]
  · refine List.Pairwise.imp ?_ (pairwise_sortDesc _)
    intro a b hge hb
    rw [hb] at hge
    cases ha : a.control_uc_ratio with
    | inf => rfl
    | fin q => rw [ha] at hge; exact absurd hge (by simp [ratioGe])

/-- Concrete sample metadata shared by the closed witness theorems. -/
def mdW : Metadata := buildMetadata
  [(strL "c1", strL "Control"), (strL "u1", strL "UC"),
   (strL "u2", strL "UC")]

/-- Concrete sample columns shared by the closed witness theorems. -/
def colsW : List Str := [strL "c1", strL "u1", strL "u2"]

/-- Concrete abundance rows shared by the closed witness theorems. -/
def rowsW : List Row :=
  [(strL "k__A|p__X", [10, 0, 0]), (strL "k__A|p__Y_Z", [0, 2, 4]),
   (strL "k__A", [1, 1, 1])]

/-- Closed witness for C1: on `rowsW` the engine yields `inf` for the
all-zero-UC phylum `p__X` (placed first) and the finite ratio `0` for
`p__Y Z`. -/
theorem calcRatios_ratio_cases_sorted_witness :
    ((⟨strL "p__X", 10, 0, 0, Ratio.inf, 1, 2⟩ : TaxonStat).uc_avg = 0 →
      0 < (⟨strL "p__X", 10, 0, 0, Ratio.inf, 1, 2⟩ :
        TaxonStat).control_avg →
      (⟨strL "p__X", 10, 0, 0, Ratio.inf, 1, 2⟩ :
        TaxonStat).control_uc_ratio = .inf) ∧
    (⟨strL "p__X", 10, 0, 0, Ratio.inf, 1, 2⟩ :
      TaxonStat).control_uc_ratio = .inf := by
  have h := (calcRatios_ratio_cases_sorted (fun _ => 0) mdW colsW 2 rowsW).1
    ⟨strL "p__X", 10, 0, 0, Ratio.inf, 1, 2⟩ (by with_unfolding_all decide)
  exact ⟨h.2.1, h.2.1 (by norm_num) (by norm_num)⟩

theorem filter_zip_length (f : Str → Bool) (columns : List Str)
    (values : List ℚ) (h : values.length = columns.length) :
    ((columns.zip values).filter (fun p => f p.1)).length =
      (columns.filter f).length := by
  induction columns generalizing values with
  | nil => simp
  | cons c cs ih =>
    cases values with
    | nil => simp at h
    | cons v vs =>
      have h' : vs.length = cs.length := by simpa using h
      rw [List.zip_cons_cons, List.filter_cons, List.filter_cons]
      cases hf : f c
      · simpa [hf] using ih vs h'
      · simpa [hf] using ih vs h'

theorem filter_group_partition (md : Metadata) (columns : List Str) :
    (columns.filter (fun s => assignGroup md s == Group.control)).length +
      (columns.filter (fun s => assignGroup md s == Group.uc)).length =
      columns.length := by
  induction columns with
  | nil => simp
  | cons c cs ih =>
    rw [List.filter_cons, List.filter_cons]
    cases hg : assignGroup md c
    · simp only [show (Group.control == Group.control) = true from rfl,
        show (Group.control == Group.uc) = false from rfl, if_true,
        if_false, List.length_cons, reduceIte, Bool.false_eq_true]
      omega
    · simp only [show (Group.uc == Group.control) = false from rfl,
        show (Group.uc == Group.uc) = true from rfl, if_true, if_false,
        List.length_cons, reduceIte, Bool.false_eq_true]
      omega

/-- **C10.** With rows aligned to the sample columns, every record's two
sample counts are the lengths of the control/uc partition of the columns,
so they sum to the number of sample columns and are identical across all
records of one invocation. -/
theorem calcRatios_counts (sqrtFn : ℚ → ℚ) (md : Metadata)
    (columns : List Str) (lvl : ℕ) (rows : List Row)
    (halign : ∀ row ∈ rows, row.2.length = columns.length) :
    (∀ r ∈ calculate_taxa_control_uc_ratios sqrtFn md columns lvl rows,
      r.control_samples_count + r.uc_samples_count = columns.length) ∧
    (∀ r ∈ calculate_taxa_control_uc_ratios sqrtFn md columns lvl rows,
      ∀ s ∈ calculate_taxa_control_uc_ratios sqrtFn md columns lvl rows,
        r.control_samples_count = s.control_samples_count ∧
        r.uc_samples_count = s.uc_samples_count) := by
  have hkey : ∀ r ∈ calculate_taxa_control_uc_ratios sqrtFn md columns
      lvl rows,
      r.control_samples_count =
        (columns.filter
          (fun x => assignGroup md x == Group.control)).length ∧
      r.uc_samples_count =
        (columns.filter (fun x => assignGroup md x == Group.uc)).length := by
    intro r hr
    obtain ⟨row, hrowm, hrow⟩ := (mem_calcRatios _ _ _ _ _ r).1 hr
    obtain ⟨comp, -, -, -, -, -, -, hcc, huc⟩ :=
      rowStat_fields _ _ _ _ _ _ hrow
    constructor
    · rw [hcc]
      unfold controlValues
      rw [List.length_map]
      exact filter_zip_length (fun s => assignGroup md s == Group.control)
        columns row.2 (halign row hrowm)
    · rw [huc]
      unfold ucValues
      rw [List.length_map]
      exact filter_zip_length (fun s => assignGroup md s == Group.uc)
        columns row.2 (halign row hrowm)
  constructor
  · intro r hr
    obtain ⟨h1, h2⟩ := hkey r hr
    rw [h1, h2]
    exact filter_group_partition md columns
  · intro r hr s hs
    obtain ⟨h1, h2⟩ := hkey r hr
    obtain ⟨h3, h4⟩ := hkey s hs
    exact ⟨h1.trans h3.symm, h2.trans h4.symm⟩

/-- Closed witness for C10: on `rowsW` (three aligned sample columns) the
`p__X` record reports `1 + 2 = 3` samples. -/
theorem calcRatios_counts_witness :
    (⟨strL "p__X", 10, 0, 0, Ratio.inf, 1, 2⟩ :
        TaxonStat).control_samples_count +
      (⟨strL "p__X", 10, 0, 0, Ratio.inf, 1, 2⟩ :
        TaxonStat).uc_samples_count = colsW.length :=
  (calcRatios_counts (fun _ => 0) mdW colsW 2 rowsW (by decide)).1
    ⟨strL "p__X", 10, 0, 0, Ratio.inf, 1, 2⟩ (by with_unfolding_all decide)

/-- Concrete row whose phylum component contains an underscore. -/
def rows9 : List Row := [(strL "k__A|p__Some_Phylum", [1, 1, 1])]

/-- **C9 counterexample.** The engine's record keeps the two-character rank
marker on the taxon name: for the row `k__A|p__Some_Phylum` the produced
name is `p__Some Phylum`, not the marker-stripped `Some Phylum` that the
claim describes (line 277 re-attaches the marker). -/
theorem calcRatios_taxon_name_cex :
    ((calculate_taxa_control_uc_ratios (fun _ => 0) mdW colsW 2 rows9).map
        TaxonStat.taxon = [strL "p__Some Phylum"] ∧
      usToSpaces ((strL "p__Some_Phylum").drop (levelPrefix 2).length) =
        strL "Some Phylum" ∧
      strL "p__Some Phylum" ≠ strL "Some Phylum") := by
  with_unfolding_all decide

/-- **C9 (amended).** Every record's taxon name is the rank marker followed
by the rank-specific component with the marker stripped and underscores
replaced by spaces. -/
theorem calcRatios_taxon_name (sqrtFn : ℚ → ℚ) (md : Metadata)
    (columns : List Str) (lvl : ℕ) (rows : List Row) :
    ∀ r ∈ calculate_taxa_control_uc_ratios sqrtFn md columns lvl rows,
      ∃ row ∈ rows, ∃ comp,
        rankComponent row.1 (levelPrefix lvl) = some comp ∧
        leadsWith (levelPrefix lvl) comp = true ∧
        r.taxon = levelPrefix lvl ++
          usToSpaces (comp.drop (levelPrefix lvl).length) := by
  intro r hr
  obtain ⟨row, hrowm, hrow⟩ := (mem_calcRatios _ _ _ _ _ r).1 hr
  obtain ⟨comp, hcomp, htax, -⟩ := rowStat_fields _ _ _ _ _ _ hrow
  exact ⟨row, hrowm, comp, hcomp, List.find?_some hcomp, htax⟩

/-- Closed witness for the amended C9 at the `rows9` input. -/
theorem calcRatios_taxon_name_witness :
    ∃ row ∈ rows9, ∃ comp,
      rankComponent row.1 (levelPrefix 2) = some comp ∧
      leadsWith (levelPrefix 2) comp = true ∧
      (⟨strL "p__Some Phylum", 1, 1, 0, Ratio.fin 1, 1, 2⟩ :
          TaxonStat).taxon =
        levelPrefix 2 ++ usToSpaces (comp.drop (levelPrefix 2).length) :=
  calcRatios_taxon_name (fun _ => 0) mdW colsW 2 rows9
    ⟨strL "p__Some Phylum", 1, 1, 0, Ratio.fin 1, 1, 2⟩
    (by with_unfolding_all decide)

/-- Closed witness for C5: on `rowsW` the depth-1 (phylum file) subtable
key `k__A|p__X` has exactly two parts. -/
theorem levelTable_invariants_witness :
    (splitPipe (strL "k__A|p__X")).length = 1 + 1 :=
  (levelTable_invariants 1 rowsW).1 (strL "k__A|p__X", [10, 0, 0])
    (by with_unfolding_all decide)

instance wfPath_decidable (t : Str) : Decidable (wfPath t) := by
  unfold wfPath
  exact Nat.decidableBallLT _ _

/-- Closed witness for C7 at the `rowsW` input and the phylum depth. -/
theorem levelTable_rank_roundtrip_witness :
    ∃ comp, rankComponent (strL "k__A|p__X") (rankPfx (1 + 1)) = some comp ∧
      leadsWith (rankPfx (1 + 1)) comp = true :=
  levelTable_rank_roundtrip 1 rowsW (by norm_num)
    (by with_unfolding_all decide) (strL "k__A|p__X", [10, 0, 0])
    (by with_unfolding_all decide)

/-! ## TSV generator (`generate_taxa_comparison_tsv`, lines 295-328) -/

/-- Python `repr` of a nonnegative integer (`f"{count}"`). -/
def natRepr (n : ℕ) : Str := (Nat.repr n).data

/-- The decimal digit character for `n % 10`. -/
def digitChar (n : ℕ) : Char := Char.ofNat (48 + n % 10)

/-- The six fractional digits of `m` (taken mod `10^6`), most significant
first. -/
def frac6 (m : ℕ) : Str :=
  [digitChar (m / 100000), digitChar (m / 10000), digitChar (m / 1000),
   digitChar (m / 100), digitChar (m / 10), digitChar m]

/-- Round to the nearest integer, halves to even (the rounding Python's
fixed-point float formatting applies to the decimal digit string). -/
def rhEven (q : ℚ) : ℤ :=
  let f := Int.floor q
  let r := q - f
  if r < 1 / 2 then f
  else if 1 / 2 < r then f + 1
  else if f % 2 = 0 then f else f + 1

/-- Python `f"{q:.6f}"` on an exact rational: fixed-point notation with six
fractional digits (binary-float representation error and the sign of a
negative zero idealized away). -/
def fmt6 (q : ℚ) : Str :=
  let n := rhEven (q * 1000000)
  let m := n.natAbs
  (if n < 0 then ['-'] else []) ++ natRepr (m / 1000000) ++
    '.' :: frac6 (m % 1000000)

/-- `f"{ratio:.6f}"` on a Python float that may be `float('inf')`:
`format(float('inf'), '.6f')` is the lowercase literal `'inf'`. -/
def fmtRatio : Ratio → Str
  | .inf => strL "inf"
  | .fin q => fmt6 q

/-- One data row of the TSV (lines 315-322). -/
def tsvLine (r : TaxonStat) : Str :=
  r.taxon ++ '\t' :: fmt6 r.control_avg ++ '\t' :: fmt6 r.uc_avg ++
    '\t' :: fmt6 r.uc_std ++ '\t' :: fmtRatio r.control_uc_ratio ++
    '\t' :: natRepr r.control_samples_count ++
    '\t' :: natRepr r.uc_samples_count ++ ['\n']

/-- The TSV header line (line 312). -/
def tsvHeader : Str :=
  strL
    "Taxon\tControl_Average\tUC_Average\tUC_StdDev\tControl_UC_Ratio\tControl_Samples\tUC_Samples\n"

/-- `generate_taxa_comparison_tsv` (lines 295-328). -/
def generate_taxa_comparison_tsv (sqrtFn : ℚ → ℚ) (md : Metadata)
    (columns : List Str) (lvl : ℕ) (rows : List Row) : Str :=
  let taxa_data := calculate_taxa_control_uc_ratios sqrtFn md columns
    lvl rows
  if taxa_data = [] then
    strL "No data available for the specified taxonomic level."
  else
    tsvHeader ++ (taxa_data.map tsvLine).join

/-- Concrete two-sample columns for the TSV counterexample. -/
def cols2 : List Str := [strL "c1", strL "u1"]

/-- Concrete rows whose single record has an infinite ratio. -/
def rowsC2 : List Row := [(strL "k__A|p__X", [10, 0])]

/-- **C2 counterexample.** At a concrete input with an infinite ratio the
TSV renders the ratio cell as the lowercase `inf` (Python
`f"{float('inf'):.6f}"`), and the string `Inf` occurs nowhere in the
output; the sample-count cells `1` are bare integers, not 6-decimal
numbers. -/
theorem tsv_inf_literal_cex :
    (generate_taxa_comparison_tsv (fun _ => 0) mdW cols2 2 rowsC2 =
      strL "Taxon\tControl_Average\tUC_Average\tUC_StdDev\tControl_UC_Ratio\tControl_Samples\tUC_Samples\np__X\t10.000000\t0.000000\t0.000000\tinf\t1\t1\n") ∧
    hasSeg (generate_taxa_comparison_tsv (fun _ => 0) mdW cols2 2 rowsC2)
      (strL "Inf") = false := by
  with_unfolding_all decide

theorem digitChar_isDigit (n : ℕ) : (digitChar n).isDigit = true := by
  unfold digitChar
  have h : n % 10 < 10 := Nat.mod_lt _ (by norm_num)
  set k := n % 10 with hk
  interval_cases k <;> decide

/-- A fixed-point decimal string with exactly six digits after the point. -/
def sixDecimals (s : Str) : Prop :=
  ∃ a d, s = a ++ '.' :: d ∧ d.length = 6 ∧ ∀ ch ∈ d, ch.isDigit = true

theorem fmt6_sixDecimals (q : ℚ) : sixDecimals (fmt6 q) := by
  unfold fmt6 sixDecimals
  refine ⟨(if rhEven (q * 1000000) < 0 then ['-'] else []) ++
    natRepr ((rhEven (q * 1000000)).natAbs / 1000000),
    frac6 ((rhEven (q * 1000000)).natAbs % 1000000), ?_, ?_, ?_⟩
  · simp [List.append_assoc]
  · simp [frac6]
  · intro ch hch
    simp only [frac6, List.mem_cons, List.not_mem_nil, or_false] at hch
    rcases hch with h | h | h | h | h | h <;>
      (subst h; exact digitChar_isDigit _)

theorem join_map_infix (g : TaxonStat → Str) (l : List TaxonStat)
    (r : TaxonStat) (h : r ∈ l) :
    ∃ pre post, (l.map g).join = pre ++ g r ++ post := by
  induction l with
  | nil => exact absurd h (List.not_mem_nil r)
  | cons hd t ih =>
    rcases List.mem_cons.1 h with h1 | h1
    · subst h1
      exact ⟨[], (t.map g).join, by simp⟩
    · obtain ⟨pre, post, heq⟩ := ih h1
      exact ⟨g hd ++ pre, post, by simp [heq, List.append_assoc]⟩

/-- **C2 (amended).** When records exist, the TSV output starts with the
specified tab-separated header line, and for every record the output
contains that record's data line, in which the four statistic fields are
fixed-point numbers with exactly six decimal places, the two sample-count
fields are bare integers, and the ratio cell is the lowercase literal
`inf` whenever the ratio is infinite. -/
theorem tsv_structure (sqrtFn : ℚ → ℚ) (md : Metadata) (columns : List Str)
    (lvl : ℕ) (rows : List Row)
    (hne :
      calculate_taxa_control_uc_ratios sqrtFn md columns lvl rows ≠ []) :
    (∃ rest, generate_taxa_comparison_tsv sqrtFn md columns lvl rows =
      tsvHeader ++ rest) ∧
    ∀ r ∈ calculate_taxa_control_uc_ratios sqrtFn md columns lvl rows,
      (∃ pre post,
        generate_taxa_comparison_tsv sqrtFn md columns lvl rows =
          pre ++ (r.taxon ++ '\t' :: fmt6 r.control_avg ++
            '\t' :: fmt6 r.uc_avg ++ '\t' :: fmt6 r.uc_std ++
            '\t' :: fmtRatio r.control_uc_ratio ++
            '\t' :: natRepr r.control_samples_count ++
            '\t' :: natRepr r.uc_samples_count ++ ['\n']) ++ post) ∧
      sixDecimals (fmt6 r.control_avg) ∧ sixDecimals (fmt6 r.uc_avg) ∧
      sixDecimals (fmt6 r.uc_std) ∧
      (r.control_uc_ratio = .inf →
        fmtRatio r.control_uc_ratio = strL "inf") ∧
      (∀ q, r.control_uc_ratio = .fin q →
        fmtRatio r.control_uc_ratio = fmt6 q ∧ sixDecimals (fmt6 q)) := by
  constructor
  · refine ⟨((calculate_taxa_control_uc_ratios sqrtFn md columns lvl
      rows).map tsvLine).join, ?_⟩
    unfold generate_taxa_comparison_tsv
    rw [if_neg hne]
  · intro r hr
    refine ⟨?_, fmt6_sixDecimals _, fmt6_sixDecimals _, fmt6_sixDecimals _,
      fun h => by rw [h]; rfl,
      fun q hq => by rw [hq]; exact ⟨rfl, fmt6_sixDecimals q⟩⟩
    obtain ⟨pre, post, heq⟩ := join_map_infix tsvLine _ r hr
    refine ⟨tsvHeader ++ pre, post, ?_⟩
    unfold generate_taxa_comparison_tsv
    rw [if_neg hne, heq]
    have hline : tsvLine r = r.taxon ++ '\t' :: fmt6 r.control_avg ++
        '\t' :: fmt6 r.uc_avg ++ '\t' :: fmt6 r.uc_std ++
        '\t' :: fmtRatio r.control_uc_ratio ++
        '\t' :: natRepr r.control_samples_count ++
        '\t' :: natRepr r.uc_samples_count ++ ['\n'] := rfl
    rw [← hline]
    simp [List.append_assoc]

/-- Closed witness for the amended C2 at the `rowsC2` input. -/
theorem tsv_structure_witness :
    ∃ rest, generate_taxa_comparison_tsv (fun _ => 0) mdW cols2 2 rowsC2 =
      tsvHeader ++ rest :=
  (tsv_structure (fun _ => 0) mdW cols2 2 rowsC2
    (by with_unfolding_all decide)).1

/-! ## Diversity Calculator (`_calculate_shannon_diversity`, lines 794-809)

The function drops non-positive entries, returns `0` when none remain,
normalizes the rest to proportions and computes `-sum(p * log p)`; the
`try/except` wrapper is irrelevant here since no step can raise. -/

noncomputable def calculate_shannon_diversity (abundances : List ℚ) : ℝ :=
  if abundances.filter (fun x => 0 < x) = [] then 0
  else
    -((((abundances.filter (fun x => 0 < x)).map
        (fun x => x / (abundances.filter (fun y => 0 < y)).sum)).filter
          (fun p => 0 < p)).map
        (fun p : ℚ => (p : ℝ) * Real.log (p : ℝ))).sum

theorem list_sum_nonpos (l : List ℝ) (h : ∀ x ∈ l, x ≤ 0) : l.sum ≤ 0 := by
  induction l with
  | nil => simp
  | cons a t ih =>
    rw [List.sum_cons]
    have ha := h a (List.mem_cons_self a t)
    have ht := ih (fun x hx => h x (List.mem_cons_of_mem a hx))
    linarith

theorem list_sum_neg (l : List ℝ) (hne : l ≠ []) (h : ∀ x ∈ l, x < 0) :
    l.sum < 0 := by
  cases l with
  | nil => exact absurd rfl hne
  | cons a t =>
    rw [List.sum_cons]
    have ha := h a (List.mem_cons_self a t)
    have ht := list_sum_nonpos t
      (fun x hx => le_of_lt (h x (List.mem_cons_of_mem a hx)))
    linarith

theorem positives_pos (l : List ℚ) :
    ∀ x ∈ l.filter (fun x => 0 < x), 0 < x := by
  intro x hx
  have := List.of_mem_filter hx
  simpa using this

theorem positives_sum_pos (l : List ℚ)
    (hne : l.filter (fun x => 0 < x) ≠ []) :
    0 < (l.filter (fun x => 0 < x)).sum :=
  List.sum_pos _ (positives_pos l) hne

theorem lt_sum_of_two (S : List ℚ) (hpos : ∀ x ∈ S, 0 < x)
    (hlen : 2 ≤ S.length) : ∀ a ∈ S, a < S.sum := by
  intro a ha
  have hperm := List.perm_cons_erase ha
  have hsum : S.sum = a + (S.erase a).sum := by
    rw [List.Perm.sum_eq hperm, List.sum_cons]
  have herane : S.erase a ≠ [] := by
    intro habs
    have := List.length_erase_of_mem ha
    rw [habs] at this
    simp at this
    omega
  have herpos : 0 < (S.erase a).sum :=
    List.sum_pos _ (fun x hx => hpos x (List.mem_of_mem_erase hx)) herane
  linarith

theorem props_mem (l : List ℚ) (hne : l.filter (fun x => 0 < x) ≠ [])
    (p : ℚ)
    (hp : p ∈ (l.filter (fun x => 0 < x)).map
      (fun x => x / (l.filter (fun y => 0 < y)).sum)) :
    0 < p ∧ p ≤ 1 := by
  obtain ⟨x, hx, rfl⟩ := List.mem_map.1 hp
  have hxpos := positives_pos l x hx
  have hT := positives_sum_pos l hne
  have hle : x ≤ (l.filter (fun y => 0 < y)).sum :=
    List.single_le_sum (fun y hy => le_of_lt (positives_pos l y hy)) x hx
  exact ⟨div_pos hxpos hT, (div_le_one hT).2 hle⟩

theorem shannon_eval (l : List ℚ)
    (hne : l.filter (fun x => 0 < x) ≠ []) :
    calculate_shannon_diversity l =
      -(((l.filter (fun x => 0 < x)).map
          (fun x => x / (l.filter (fun y => 0 < y)).sum)).map
          (fun p : ℚ => (p : ℝ) * Real.log (p : ℝ))).sum := by
  unfold calculate_shannon_diversity
  rw [if_neg hne]
  have hall : ∀ p ∈ (l.filter (fun x => 0 < x)).map
      (fun x => x / (l.filter (fun y => 0 < y)).sum),
      (fun p => decide (0 < p)) p = true :=
    fun p hp => decide_eq_true (props_mem l hne p hp).1
  rw [List.filter_eq_self.2 hall]

theorem shannon_nonneg (l : List ℚ) :
    0 ≤ calculate_shannon_diversity l := by
  by_cases hne : l.filter (fun x => 0 < x) = []
  · unfold calculate_shannon_diversity
    rw [if_pos hne]
  · rw [shannon_eval l hne, neg_nonneg]
    apply list_sum_nonpos
    intro t ht
    obtain ⟨p, hp, rfl⟩ := List.mem_map.1 ht
    obtain ⟨hp0, hp1⟩ := props_mem l hne p hp
    have hpR : (0 : ℝ) < (p : ℝ) := by exact_mod_cast hp0
    have hlog : Real.log (p : ℝ) ≤ 0 :=
      Real.log_nonpos (le_of_lt hpR) (by exact_mod_cast hp1)
    nlinarith [hpR, hlog]

theorem shannon_zero_iff (l : List ℚ) :
    (calculate_shannon_diversity l = 0 ↔
      (l.filter (fun x => 0 < x)).length ≤ 1) := by
  cases hP : l.filter (fun x => 0 < x) with
  | nil =>
    unfold calculate_shannon_diversity
    simp [hP]
  | cons x t =>
    have hne : l.filter (fun x => 0 < x) ≠ [] := by rw [hP]; simp
    have hx : 0 < x :=
      positives_pos l x (hP ▸ List.mem_cons_self x t)
    cases t with
    | nil =>
      have hLHS : calculate_shannon_diversity l = 0 := by
        rw [shannon_eval l hne, hP]
        have h1 : x / ([x] : List ℚ).sum = 1 := by
          rw [List.sum_singleton, div_self (ne_of_gt hx)]
        rw [List.map_singleton, h1, List.map_singleton]
        norm_num
      rw [hLHS]
      simp
    | cons y r =>
      have hlen2 : 2 ≤ (l.filter (fun x => 0 < x)).length := by
        rw [hP]
        simp only [List.length_cons]
        omega
      have hpos : 0 < calculate_shannon_diversity l := by
        rw [shannon_eval l hne, lt_neg, neg_zero]
        apply list_sum_neg
        · rw [hP]
          simp
        · intro t ht
          obtain ⟨p, hp, rfl⟩ := List.mem_map.1 ht
          obtain ⟨a, ha, rfl⟩ := List.mem_map.1 hp
          have hapos := positives_pos l a ha
          have haT : a < (l.filter (fun y => 0 < y)).sum :=
            lt_sum_of_two _ (positives_pos l) hlen2 a ha
          have hT := positives_sum_pos l hne
          have hp0 : (0 : ℚ) < a / (l.filter (fun y => 0 < y)).sum :=
            div_pos hapos hT
          have hp1 : a / (l.filter (fun y => 0 < y)).sum < 1 :=
            (div_lt_one hT).2 haT
          have hpR : (0 : ℝ) <
              ((a / (l.filter (fun y => 0 < y)).sum : ℚ) : ℝ) := by
            exact_mod_cast hp0
          have hlog : Real.log
              ((a / (l.filter (fun y => 0 < y)).sum : ℚ) : ℝ) < 0 :=
            Real.log_neg hpR (by exact_mod_cast hp1)
          nlinarith [hpR, hlog]
      constructor
      · intro h0
        exact absurd h0.symm (ne_of_lt hpos)
      · intro hlen
        simp only [List.length_cons] at hlen
        omega

theorem shannon_scale (l : List ℚ) (c : ℚ) (hc : 0 < c) :
    calculate_shannon_diversity (l.map (fun x => c * x)) =
      calculate_shannon_diversity l := by
  have hfil : (l.map (fun x => c * x)).filter (fun x => 0 < x) =
      (l.filter (fun x => 0 < x)).map (fun x => c * x) := by
    rw [List.filter_map]
    congr 1
    apply List.filter_congr
    intro x hx
    simp only [Function.comp_apply]
    exact decide_eq_decide.2 (mul_pos_iff_of_pos_left hc)
  by_cases hP : l.filter (fun x => 0 < x) = []
  · have hP' : (l.map (fun x => c * x)).filter (fun x => 0 < x) = [] := by
      rw [hfil, hP]
      rfl
    unfold calculate_shannon_diversity
    rw [if_pos hP, if_pos hP']
  · have hP' : (l.map (fun x => c * x)).filter (fun x => 0 < x) ≠ [] := by
      rw [hfil]
      simpa using hP
    rw [shannon_eval _ hP', shannon_eval l hP]
    have hsum : ((l.filter (fun y => 0 < y)).map (fun x => c * x)).sum =
        c * (l.filter (fun y => 0 < y)).sum := by
      simpa using List.sum_map_mul_left (l.filter (fun y => 0 < y)) id c
    have hprops : ((l.map (fun x => c * x)).filter (fun x => 0 < x)).map
        (fun x => x / ((l.map (fun y => c * y)).filter
          (fun y => 0 < y)).sum) =
        (l.filter (fun x => 0 < x)).map
          (fun x => x / (l.filter (fun y => 0 < y)).sum) := by
      rw [show (l.map (fun y => c * y)).filter (fun y => 0 < y) =
          (l.map (fun x => c * x)).filter (fun x => 0 < x) from rfl]
      rw [hfil, hsum, List.map_map]
      apply List.map_congr_left
      intro a ha
      simp only [Function.comp_apply]
      exact mul_div_mul_left a _ (ne_of_gt hc)
    rw [hprops]

/-- **C4.** On a non-empty list of non-negative abundances the Shannon
index is non-negative; it is `0` exactly when at most one strictly
positive entry exists; and it is invariant under scaling every entry by
the same positive constant. -/
theorem shannon_props (l : List ℚ) (c : ℚ) (hl : l ≠ [])
    (hnn : ∀ x ∈ l, 0 ≤ x) (hc : 0 < c) :
    0 ≤ calculate_shannon_diversity l ∧
    (calculate_shannon_diversity l = 0 ↔
      (l.filter (fun x => 0 < x)).length ≤ 1) ∧
    calculate_shannon_diversity (l.map (fun x => c * x)) =
      calculate_shannon_diversity l :=
  ⟨shannon_nonneg l, shannon_zero_iff l, shannon_scale l c hc⟩

/-- Closed witness for C4 at the list `[1, 2]` and scale factor `2`. -/
theorem shannon_props_witness :
    0 ≤ calculate_shannon_diversity [1, 2] ∧
    (calculate_shannon_diversity [1, 2] = 0 ↔
      (([1, 2] : List ℚ).filter (fun x => 0 < x)).length ≤ 1) ∧
    calculate_shannon_diversity
        (([1, 2] : List ℚ).map (fun x => (2 : ℚ) * x)) =
      calculate_shannon_diversity [1, 2] :=
  shannon_props [1, 2] 2 (by simp)
    (by intro x hx; fin_cases hx <;> norm_num) (by norm_num)

/-! ## RPM Normalizers (`extract_taxa.py` / `extract_taxa_simple.py`)

`extract_taxa.py` lines 12-20 divide each pandas column by its sum: IEEE
division never raises, so a zero column sum produces `NaN` (for a zero
cell) or `±inf`, not `0`.  `extract_taxa_simple.py` lines 12-37 divide
Python floats, whose division by zero raises `ZeroDivisionError`; the
`except (ValueError, IndexError)` handlers do not catch it. -/

/-- An IEEE float value as pandas produces it on finite inputs. -/
inductive PFloat where
  | nan
  | pinf
  | ninf
  | fin (q : ℚ)
deriving DecidableEq

/-- IEEE division of finite values: `0/0 = NaN`, `±x/0 = ±inf`. -/
def pdiv (a b : ℚ) : PFloat :=
  if b ≠ 0 then .fin (a / b)
  else if 0 < a then .pinf
  else if a < 0 then .ninf
  else .nan

/-- Multiplication of an IEEE value by the positive constant `10^6`. -/
def pscale : PFloat → PFloat
  | .nan => .nan
  | .pinf => .pinf
  | .ninf => .ninf
  | .fin q => .fin (q * 1000000)

/-- `convert_to_rpm` of `extract_taxa.py` (lines 12-20):
`rpm_df[col] = (df[col] / sample_sums[col]) * 1000000`, column-major. -/
def convert_to_rpm (cols : List (List ℚ)) : List (List PFloat) :=
  cols.map (fun col => col.map (fun v => pscale (pdiv v col.sum)))

/-- A data cell of the simple script: `none` when `float(row[i + 1])`
raises `ValueError` or `IndexError`, `some v` when it parses. -/
abbrev Cell := Option ℚ

/-- `row[i + 1]` with the `IndexError` handler folded in. -/
def cellAt (row : List Cell) (i : ℕ) : Cell :=
  match row.get? i with
  | none => none
  | some c => c

/-- `sample_totals[i]` (lines 15-22): parse and index errors contribute
nothing (`except: pass`). -/
def sampleTotals (rows : List (List Cell)) (i : ℕ) : ℚ :=
  (rows.map (fun row => (cellAt row i).getD 0)).sum

/-- Sequential collection of intermediate results: the first raised
exception aborts the whole call. -/
def collectE {α : Type} : List (Except Unit α) → Except Unit (List α)
  | [] => .ok []
  | .error e :: _ => .error e
  | .ok v :: rest =>
    match collectE rest with
    | .error e => .error e
    | .ok vs => .ok (v :: vs)

/-- One output row (lines 26-35): `rpm = (count / sample_totals[i]) *
1000000` for a parsable cell — raising `ZeroDivisionError` when the total
is zero — and `0.0` for a `ValueError`/`IndexError`. -/
def rpmRow (totals : ℕ → ℚ) (row : List Cell) : Except Unit (List ℚ) :=
  collectE ([0, 1, 2, 3].map (fun i =>
    match cellAt row i with
    | none => .ok 0
    | some c =>
      if totals i = 0 then .error ()
      else .ok (c / totals i * 1000000)))

/-- `convert_to_rpm` of `extract_taxa_simple.py` (lines 12-37), on the
four sample columns of the data rows (the taxa-name column is omitted). -/
def convert_to_rpm_simple (rows : List (List Cell)) :
    Except Unit (List (List ℚ)) :=
  collectE (rows.map (fun row => rpmRow (sampleTotals rows) row))

theorem collectE_error_of_mem {α : Type} (l : List (Except Unit α))
    (h : Except.error () ∈ l) : collectE l = .error () := by
  induction l with
  | nil => exact absurd h (List.not_mem_nil _)
  | cons x rest ih =>
    cases x with
    | error e => rfl
    | ok v =>
      rcases List.mem_cons.1 h with h1 | h1
      · exact absurd h1.symm (by simp)
      · show (match collectE rest with
          | .error e => (.error e : Except Unit (List α))
          | .ok vs => .ok (v :: vs)) = .error ()
        rw [ih h1]

theorem collectE_ok_imp {α : Type} (l : List (Except Unit α))
    (vs : List α) (h : collectE l = .ok vs) : l = vs.map Except.ok := by
  induction l generalizing vs with
  | nil =>
    cases vs with
    | nil => rfl
    | cons w ws =>
      have hx : (Except.ok ([] : List α) : Except Unit (List α)) =
          .ok (w :: ws) := h
      injection hx with hx2
      exact absurd hx2.symm (List.cons_ne_nil w ws)
  | cons x rest ih =>
    cases x with
    | error e =>
      have hx : (Except.error () : Except Unit (List α)) = .ok vs := h
      injection hx
    | ok v =>
      have h' : (match collectE rest with
          | .error e => (.error e : Except Unit (List α))
          | .ok ws => .ok (v :: ws)) = .ok vs := h
      cases hrest : collectE rest with
      | error e =>
        rw [hrest] at h'
        exact absurd h' (by simp)
      | ok ws =>
        rw [hrest] at h'
        have hvs : vs = v :: ws := by
          injection h' with h2
          exact h2.symm
        subst hvs
        simp only [List.map_cons]
        rw [ih ws hrest]

theorem list_sum_nonneg_q (l : List ℚ) (h : ∀ v ∈ l, 0 ≤ v) :
    0 ≤ l.sum := by
  induction l with
  | nil => simp
  | cons a t ih =>
    rw [List.sum_cons]
    have ha := h a (List.mem_cons_self a t)
    have ht := ih (fun v hv => h v (List.mem_cons_of_mem a hv))
    linarith

theorem all_zero_of_sum_zero (l : List ℚ) (hnn : ∀ v ∈ l, 0 ≤ v)
    (h : l.sum = 0) : ∀ v ∈ l, v = 0 := by
  induction l with
  | nil => simp
  | cons a t ih =>
    rw [List.sum_cons] at h
    have ha := hnn a (List.mem_cons_self a t)
    have htn : ∀ v ∈ t, 0 ≤ v :=
      fun v hv => hnn v (List.mem_cons_of_mem a hv)
    have hts := list_sum_nonneg_q t htn
    have ha0 : a = 0 := by linarith
    have ht0 : t.sum = 0 := by linarith
    intro v hv
    rcases List.mem_cons.1 hv with h1 | h1
    · exact h1.trans ha0
    · exact ih htn ht0 v h1

deriving instance DecidableEq for Except

/-- **C3 counterexample.** The simple normalizer raises (uncaught
`ZeroDivisionError`) on a zero-sum column holding a parsed `0`, and the
pandas normalizer turns a zero-sum column into `NaN`, not `0`. -/
theorem rpm_zero_guard_cex :
    (convert_to_rpm_simple [[some 0, some 1, some 1, some 1]] =
      .error () ∧
    convert_to_rpm [[0]] = [[PFloat.nan]] ∧
    PFloat.nan ≠ PFloat.fin 0) := by
  with_unfolding_all decide

/-- **C3 (amended).** Neither normalizer defines a zero-sum column as
zeros: the pandas version never raises but fills a zero-sum column of
non-negative counts with `NaN`, while the pure-Python version raises
`ZeroDivisionError` as soon as a zero-total column contains a parsable
cell, since only `ValueError` and `IndexError` are caught. -/
theorem rpm_zero_sum_behavior (cols : List (List ℚ))
    (rows : List (List Cell)) (i : ℕ)
    (hnn : ∀ col ∈ cols, ∀ v ∈ col, 0 ≤ v) (hi : i < 4)
    (hz : sampleTotals rows i = 0)
    (hcell : ∃ row ∈ rows, (cellAt row i).isSome) :
    (∀ col ∈ cols, col.sum = 0 →
      col.map (fun v => pscale (pdiv v col.sum)) ∈ convert_to_rpm cols ∧
      col.map (fun v => pscale (pdiv v col.sum)) =
        col.map (fun _ => PFloat.nan)) ∧
    convert_to_rpm_simple rows = .error () := by
  constructor
  · intro col hcol hsum
    refine ⟨List.mem_map_of_mem _ hcol, ?_⟩
    apply List.map_congr_left
    intro v hv
    have hv0 : v = 0 := all_zero_of_sum_zero col (hnn col hcol) hsum v hv
    rw [hsum, hv0]
    with_unfolding_all rfl
  · obtain ⟨row, hrow, hsome⟩ := hcell
    apply collectE_error_of_mem
    apply List.mem_map.2
    refine ⟨row, hrow, ?_⟩
    unfold rpmRow
    apply collectE_error_of_mem
    apply List.mem_map.2
    refine ⟨i, ?_, ?_⟩
    · interval_cases i <;> simp
    · obtain ⟨c, hc⟩ := Option.isSome_iff_exists.1 hsome
      simp [hc, hz]

/-- Closed witness for the amended C3: the simple normalizer raises on a
one-row table whose first column is a parsed `0`. -/
theorem rpm_zero_sum_behavior_witness :
    convert_to_rpm_simple [[some 0, some 2, some 2, some 2]] =
      .error () :=
  (rpm_zero_sum_behavior [[0]] [[some 0, some 2, some 2, some 2]] 0
    (by with_unfolding_all decide) (by norm_num)
    (by with_unfolding_all decide) (by with_unfolding_all decide)).2

theorem sum_map_div_mul (l : List ℚ) (S : ℚ) :
    (l.map (fun v => v / S * 1000000)).sum = l.sum / S * 1000000 := by
  induction l with
  | nil => simp
  | cons a t ih =>
    simp only [List.map_cons, List.sum_cons, ih]
    ring

theorem pandas_nonzero_col (col : List ℚ) (h : col.sum ≠ 0) :
    col.map (fun v => pscale (pdiv v col.sum)) =
      (col.map (fun v => v / col.sum * 1000000)).map PFloat.fin ∧
    (col.map (fun v => v / col.sum * 1000000)).sum = 1000000 := by
  constructor
  · rw [List.map_map]
    apply List.map_congr_left
    intro v hv
    simp only [Function.comp_apply]
    unfold pdiv
    rw [if_pos h]
    rfl
  · rw [sum_map_div_mul, div_self h, one_mul]

theorem map_eq_map_ok_forall {β : Type} (f : List Cell → Except Unit β)
    (rows : List (List Cell)) (out : List β)
    (h : rows.map f = out.map Except.ok) :
    List.Forall₂ (fun row orow => f row = .ok orow) rows out := by
  induction rows generalizing out with
  | nil =>
    cases out with
    | nil => exact .nil
    | cons o os => simp at h
  | cons r rs ih =>
    cases out with
    | nil => simp at h
    | cons o os =>
      simp only [List.map_cons] at h
      injection h with h1 h2
      exact .cons h1 (ih os h2)

theorem rpmRow_ok_getD (T : ℕ → ℚ) (row : List Cell) (v : List ℚ)
    (hok : rpmRow T row = .ok v) (i : ℕ) (hi : i < 4)
    (hT : T i ≠ 0) :
    v.getD i 0 = (cellAt row i).getD 0 / T i * 1000000 := by
  have hmap := collectE_ok_imp _ _ hok
  have hget := congrArg (fun l => l.get? i) hmap
  simp only [List.get?_map] at hget
  have hidx : ([0, 1, 2, 3] : List ℕ).get? i = some i := by
    interval_cases i <;> rfl
  rw [hidx] at hget
  cases hv : v.get? i with
  | none =>
    rw [hv] at hget
    exact absurd hget (by simp)
  | some w =>
    rw [hv] at hget
    have hgd : v.getD i 0 = w := by
      rw [List.getD_eq_getElem?_getD, ← List.get?_eq_getElem?, hv]
      rfl
    rw [hgd]
    have hget2 : (match cellAt row i with
        | none => (Except.ok 0 : Except Unit ℚ)
        | some c =>
          if T i = 0 then .error () else .ok (c / T i * 1000000)) =
        Except.ok w := by
      have h1 : some (match cellAt row i with
          | none => (Except.ok 0 : Except Unit ℚ)
          | some c =>
            if T i = 0 then .error () else .ok (c / T i * 1000000)) =
          some (Except.ok w) := hget
      injection h1
    cases hcell : cellAt row i with
    | none =>
      have hget3 : (Except.ok 0 : Except Unit ℚ) = Except.ok w := by
        rw [hcell] at hget2
        exact hget2
      have hw : w = 0 := by
        injection hget3 with h2
        exact h2.symm
      rw [hw]
      simp
    | some c =>
      have hget3 : (if T i = 0 then (Except.error () : Except Unit ℚ)
          else .ok (c / T i * 1000000)) = Except.ok w := by
        rw [hcell] at hget2
        exact hget2
      rw [if_neg hT] at hget3
      have hw : w = c / T i * 1000000 := by
        injection hget3 with h2
        exact h2.symm
      rw [hw]
      rfl

theorem simple_col_values (T : ℕ → ℚ) (rows : List (List Cell))
    (out : List (List ℚ)) (i : ℕ) (hi : i < 4) (hT : T i ≠ 0)
    (hfa : List.Forall₂ (fun row orow => rpmRow T row = .ok orow)
      rows out) :
    (out.map (fun r => r.getD i 0)).sum =
      (rows.map (fun row => (cellAt row i).getD 0)).sum / T i *
        1000000 := by
  induction hfa with
  | nil => simp
  | cons hhd htl ih =>
    simp only [List.map_cons, List.sum_cons, ih]
    rw [rpmRow_ok_getD T _ _ hhd i hi hT]
    ring

/-- **C8 counterexample.** A zero-sum pandas column of zeros normalizes to
`NaN` values, not to the all-zero column the claim demands. -/
theorem rpm_sum_million_cex :
    (convert_to_rpm [[0, 0]] = [[PFloat.nan, PFloat.nan]] ∧
    ([PFloat.nan, PFloat.nan] : List PFloat) ≠
      [PFloat.fin 0, PFloat.fin 0]) := by
  with_unfolding_all decide

/-- **C8 (amended).** Every column with nonzero input sum normalizes to
finite values summing to exactly 1,000,000 — in the pandas version
directly, and in the pure-Python version for any call that returns — but a
zero-sum column does not come back as zeros: in the pandas version a
nonempty all-non-negative zero-sum column yields `NaN` cells. -/
theorem rpm_column_sums (cols : List (List ℚ))
    (rows : List (List Cell)) :
    (∀ col ∈ cols, col.sum ≠ 0 →
      col.map (fun v => pscale (pdiv v col.sum)) ∈ convert_to_rpm cols ∧
      ∃ qs : List ℚ, col.map (fun v => pscale (pdiv v col.sum)) =
        qs.map PFloat.fin ∧ qs.sum = 1000000) ∧
    (∀ out, convert_to_rpm_simple rows = .ok out → ∀ i, i < 4 →
      sampleTotals rows i ≠ 0 →
      (out.map (fun r => r.getD i 0)).sum = 1000000) ∧
    (∀ col ∈ cols, col ≠ [] → (∀ v ∈ col, 0 ≤ v) → col.sum = 0 →
      col.map (fun v => pscale (pdiv v col.sum)) ≠
        col.map (fun _ => PFloat.fin 0)) := by
  refine ⟨?_, ?_, ?_⟩
  · intro col hcol hsum
    obtain ⟨h1, h2⟩ := pandas_nonzero_col col hsum
    exact ⟨List.mem_map_of_mem _ hcol,
      col.map (fun v => v / col.sum * 1000000), h1, h2⟩
  · intro out hok i hi hT
    have hmap := collectE_ok_imp _ _ hok
    have hfa := map_eq_map_ok_forall _ rows out hmap
    rw [simple_col_values (sampleTotals rows) rows out i hi hT hfa]
    have : (rows.map (fun row => (cellAt row i).getD 0)).sum =
        sampleTotals rows i := rfl
    rw [this, div_self hT, one_mul]
  · intro col hcol hne hnn hsum
    cases col with
    | nil => exact absurd rfl hne
    | cons a t =>
      intro habs
      have ha0 : a = 0 := all_zero_of_sum_zero _ hnn hsum a
        (List.mem_cons_self a t)
      have hhead : pscale (pdiv a (a :: t).sum) = PFloat.fin 0 := by
        have habs2 : pscale (pdiv a (a :: t).sum) ::
            t.map (fun v => pscale (pdiv v (a :: t).sum)) =
            PFloat.fin 0 :: t.map (fun _ => PFloat.fin 0) := habs
        injection habs2
      rw [hsum, ha0] at hhead
      have hnan : pscale (pdiv 0 0) = PFloat.nan := by
        with_unfolding_all rfl
      rw [hnan] at hhead
      exact absurd hhead (by simp)

/-- Closed witness for the amended C8: the pandas column `[1, 3]` (sum 4)
yields finite values summing to exactly 1,000,000. -/
theorem rpm_column_sums_witness :
    ∃ qs : List ℚ,
      ([1, 3] : List ℚ).map
        (fun v => pscale (pdiv v ([1, 3] : List ℚ).sum)) =
        qs.map PFloat.fin ∧ qs.sum = 1000000 :=
  ((rpm_column_sums [[1, 3]] []).1 [1, 3]
    (by with_unfolding_all decide) (by with_unfolding_all decide)).2

end Shotgun
